import Mathlib

/-!
A shallow embedding of the Bulls and Cows (Entropy Edition) engine
(`BullsAndCowsgame.py`) and proofs about its core operations: the feedback
oracle `get_feedback`, the candidate-pool operation `filter_candidates`, the
uncertainty estimator `calculate_uncertainty`, the entropy helper
`calculate_guess_entropy`, the advisor `suggest_best_guess`, and the input
validator `parse_input`.

Codes are modelled as `List ℕ` (Python tuples of ints); the candidate pool is
a `List (List ℕ)` (Python list of tuples, order significant).  Python ints are
embedded as `ℕ` where the source only produces non-negative values and as `ℤ`
where subtraction occurs (the cows count).  Python floats (`math.log2`) are
idealised as real numbers.
-/

namespace BullsCows

/-- A structurally valid Code per the spec's data model: an ordered sequence of
exactly 4 pairwise-distinct symbols drawn from the alphabet 0–9. -/
def ValidCode (c : List ℕ) : Prop :=
  c.length = 4 ∧ c.Nodup ∧ ∀ d ∈ c, d < 10

instance (c : List ℕ) : Decidable (ValidCode c) := by
  unfold ValidCode; infer_instance

/-- Embedding of `get_feedback(secret, guess)`:
`bulls = sum(s == g for s, g in zip(secret, guess))`;
`common_digits = len(set(secret) & set(guess))`; `cows = common_digits - bulls`.
The cows component is an integer because Python's subtraction may go negative
on malformed inputs. -/
def get_feedback (secret guess : List ℕ) : ℕ × ℤ :=
  let bulls : ℕ := (secret.zip guess).countP fun p => decide (p.1 = p.2)
  let common_digits : ℕ := (secret.toFinset ∩ guess.toFinset).card
  (bulls, (common_digits : ℤ) - (bulls : ℤ))

/-- Embedding of the list comprehension in `filter_candidates`: keep the
candidates `c` whose `get_feedback(c, guess)` equals the observed feedback. -/
def filter_candidates (candidates : List (List ℕ)) (guess : List ℕ)
    (actual_feedback : ℕ × ℤ) : List (List ℕ) :=
  candidates.filter fun c => decide (get_feedback c guess = actual_feedback)

/-- Embedding of `itertools.permutations(pool, k)` for a duplicate-free pool:
all length-`k` sequences of distinct elements of `pool`, lexicographic in the
pool's order. -/
def permutationsLen : ℕ → List ℕ → List (List ℕ)
  | 0, _ => [[]]
  | k + 1, pool => pool.flatMap fun x =>
      (permutationsLen k (pool.erase x)).map fun rest => x :: rest

/-- Embedding of `self.all_combinations = list(itertools.permutations(range(10), 4))`
from `__init__`. -/
def all_combinations : List (List ℕ) := permutationsLen 4 (List.range 10)

/-- Embedding of `calculate_uncertainty` applied to a candidate pool:
`log2(len(candidates))`, with `0.0` for the empty pool. -/
noncomputable def calculate_uncertainty (candidates : List (List ℕ)) : ℝ :=
  if candidates.length = 0 then 0 else Real.logb 2 candidates.length

/-- Embedding of `calculate_guess_entropy(guess, candidates)`: collect the
feedback outcome for every possible secret of the pool, count the occurrences
of each distinct outcome (`Counter`), and sum `-(p * log2 p)` over the counts,
with `p = count / total`. -/
noncomputable def calculate_guess_entropy (guess : List ℕ)
    (candidates : List (List ℕ)) : ℝ :=
  let outcomes := candidates.map fun possible_secret =>
    get_feedback possible_secret guess
  let total := candidates.length
  (outcomes.dedup.map fun o =>
    let p : ℝ := (outcomes.count o : ℝ) / (total : ℝ);
    -(p * Real.logb 2 p)).sum

/-- Embedding of `suggest_best_guess` applied to a candidate pool: the fast
path returns `(0, 1, 2, 3)` when the pool has size 5040; otherwise scan the
candidates in order, keeping the first one whose expected entropy strictly
exceeds the best seen so far (starting from `best_guess = None`,
`max_entropy = -1.0`). -/
noncomputable def suggest_best_guess (candidates : List (List ℕ)) :
    Option (List ℕ) :=
  if candidates.length = 5040 then some [0, 1, 2, 3]
  else
    (candidates.foldl
      (fun acc guess =>
        let h := calculate_guess_entropy guess candidates
        if acc.2 < h then (some guess, h) else acc)
      ((none : Option (List ℕ)), (-1 : ℝ))).1

/-- Instrumented `suggest_best_guess`: identical control flow, but also counts
how many times `calculate_guess_entropy` is evaluated (once per iteration of
the search loop; zero on the fast path). -/
noncomputable def suggest_best_guessCount (candidates : List (List ℕ)) :
    Option (List ℕ) × ℕ :=
  if candidates.length = 5040 then (some [0, 1, 2, 3], 0)
  else
    let r := candidates.foldl
      (fun acc guess =>
        let h := calculate_guess_entropy guess candidates
        if acc.2.1 < h then (some guess, h, acc.2.2 + 1)
        else (acc.1, acc.2.1, acc.2.2 + 1))
      ((none : Option (List ℕ)), (-1 : ℝ), (0 : ℕ))
    (r.1, r.2.2)

/-- Embedding of `parse_input(user_input)` over the input's character list:
reject unless the input is exactly 4 digit characters; convert to a tuple of
ints; reject unless the 4 digits are pairwise distinct (`len(set(digits)) != 4`,
with `len(set(·))` embedded as the length of `dedup`). -/
def parse_input (user_input : List Char) : Option (List ℕ) :=
  if user_input.length ≠ 4 ∨ ¬ user_input.all (fun c => c.isDigit) then none
  else
    let digits := user_input.map fun d => d.toNat - '0'.toNat
    if digits.dedup.length ≠ 4 then none
    else some digits

/-- The game-session state: the fields of class `BullsAndCowsGame`.  The
unused `history` placeholder holds (guess, feedback) records. -/
structure BullsAndCowsGame where
  all_combinations : List (List ℕ)
  candidates : List (List ℕ)
  secret : Option (List ℕ)
  history : List ((List ℕ) × (ℕ × ℤ))

/-- Embedding of `__init__`: the pool starts as a copy of `all_combinations`,
the secret unset, the history empty. -/
def initGame : BullsAndCowsGame :=
  { all_combinations := all_combinations
    candidates := all_combinations
    secret := none
    history := [] }

/-- Method `calculate_uncertainty` as a state transformer: it reads
`self.candidates` and returns the resulting state and value. -/
noncomputable def calculate_uncertaintyS (game : BullsAndCowsGame) :
    BullsAndCowsGame × ℝ :=
  (game, calculate_uncertainty game.candidates)

/-- Method `calculate_guess_entropy` as a state transformer: it takes the
guess and a candidates argument, reads no mutable state, and returns the
resulting state and value. -/
noncomputable def calculate_guess_entropyS (game : BullsAndCowsGame)
    (guess : List ℕ) (candidates : List (List ℕ)) : BullsAndCowsGame × ℝ :=
  (game, calculate_guess_entropy guess candidates)

/-- Method `suggest_best_guess` as a state transformer: it reads
`self.candidates` and returns the resulting state and suggested Code. -/
noncomputable def suggest_best_guessS (game : BullsAndCowsGame) :
    BullsAndCowsGame × Option (List ℕ) :=
  (game, suggest_best_guess game.candidates)

/-- Method `filter_candidates` as a state transformer: it reassigns
`self.candidates` to the filtered pool. -/
def filter_candidatesS (game : BullsAndCowsGame) (guess : List ℕ)
    (actual_feedback : ℕ × ℤ) : BullsAndCowsGame :=
  { game with
      candidates := filter_candidates game.candidates guess actual_feedback }

/-- The spec's bulls count, written as the spec states it: the number of
positions `i` (among the 4 positions) with `secret[i] == guess[i]`. -/
def bullsSpec (secret guess : List ℕ) : ℕ :=
  (List.range 4).countP fun i => decide (secret.getD i 10 = guess.getD i 10)

/-- The spec's cows count, written as the spec states it:
`|set(secret) ∩ set(guess)| − bulls`. -/
def cowsSpec (secret guess : List ℕ) : ℤ :=
  ((secret.toFinset ∩ guess.toFinset).card : ℤ) - (bullsSpec secret guess : ℤ)

/-- The first projection of a zip is a sublist of the first list. -/
theorem map_fst_zip_sublist (s : List ℕ) :
    ∀ g : List ℕ, ((s.zip g).map Prod.fst).Sublist s := by
  induction s with
  | nil => intro g; simp
  | cons a s ih =>
    intro g
    cases g with
    | nil => simp
    | cons b g => simpa using (ih g).cons₂ a

/-- For a duplicate-free `secret`, the zip-based bulls count never exceeds the
number of common symbols: the bull positions carry pairwise-distinct symbols,
each lying in both symbol sets. -/
theorem countP_zip_le_card_inter (s g : List ℕ) (hs : s.Nodup) :
    (s.zip g).countP (fun p => decide (p.1 = p.2)) ≤
      (s.toFinset ∩ g.toFinset).card := by
  rw [List.countP_eq_length_filter]
  set l := (s.zip g).filter (fun p => decide (p.1 = p.2)) with hl
  have hsubl : (l.map Prod.fst).Sublist s :=
    ((List.filter_sublist _).map Prod.fst).trans (map_fst_zip_sublist s g)
  have hnd : (l.map Prod.fst).Nodup := hsubl.nodup hs
  have hcard : (l.map Prod.fst).toFinset.card = l.length := by
    rw [List.toFinset_card_of_nodup hnd, List.length_map]
  have hss : (l.map Prod.fst).toFinset ⊆ s.toFinset ∩ g.toFinset := by
    intro x hx
    rw [List.mem_toFinset, List.mem_map] at hx
    obtain ⟨p, hp, hpx⟩ := hx
    obtain ⟨a, b⟩ := p
    have hmem := List.mem_filter.mp hp
    have hab : a = b := by simpa using hmem.2
    have hzip := List.of_mem_zip hmem.1
    rw [Finset.mem_inter, List.mem_toFinset, List.mem_toFinset]
    subst hpx
    exact ⟨hzip.1, hab ▸ hzip.2⟩
  calc l.length = (l.map Prod.fst).toFinset.card := hcard.symm
    _ ≤ (s.toFinset ∩ g.toFinset).card := Finset.card_le_card hss

/-- The zip-based bulls count of the code equals a positional count over the
common index range. -/
theorem countP_zip_eq_countP_range (s : List ℕ) :
    ∀ g : List ℕ,
      (s.zip g).countP (fun p => decide (p.1 = p.2)) =
        (List.range (min s.length g.length)).countP
          (fun i => decide (s.getD i 10 = g.getD i 10)) := by
  induction s with
  | nil => intro g; simp
  | cons a s ih =>
    intro g
    cases g with
    | nil => simp
    | cons b g =>
      simp only [List.zip_cons_cons, List.countP_cons, List.length_cons,
        Nat.succ_min_succ, List.range_succ_eq_map, List.countP_map,
        Function.comp_def, List.getD_cons_succ, List.getD_cons_zero]
      rw [ih g]

/-- `permutationsLen k pool` has `descFactorial (length pool) k` elements. -/
theorem permutationsLen_length (k : ℕ) :
    ∀ pool : List ℕ,
      (permutationsLen k pool).length = Nat.descFactorial pool.length k := by
  induction k with
  | zero => intro pool; simp [permutationsLen]
  | succ k ih =>
    intro pool
    rw [permutationsLen, List.length_flatMap]
    simp only [Function.comp_def]
    have hmap : pool.map
          (fun x => ((permutationsLen k (pool.erase x)).map
            fun rest => x :: rest).length) =
        pool.map (fun _ => Nat.descFactorial (pool.length - 1) k) := by
      refine List.map_congr_left fun x hx => ?_
      rw [List.length_map, ih, List.length_erase_of_mem hx]
    rw [hmap, List.map_const', List.sum_replicate, smul_eq_mul]
    cases hp : pool.length with
    | zero => simp
    | succ n => rw [Nat.succ_descFactorial_succ, Nat.succ_sub_one]

/-- The Universe has exactly 10 · 9 · 8 · 7 = 5040 Codes. -/
theorem all_combinations_length : all_combinations.length = 5040 := by
  rw [all_combinations, permutationsLen_length, List.length_range]
  rfl

/-- The expected entropy of any guess over a singleton pool is zero: the only
outcome has probability 1. -/
theorem calculate_guess_entropy_singleton (g x : List ℕ) :
    calculate_guess_entropy g [x] = 0 := by
  simp [calculate_guess_entropy]

/-- A digit character's value, as computed by `parse_input`, lies below 10. -/
theorem char_digit_value_lt_ten (c : Char) (h : c.isDigit = true) :
    c.toNat - Char.toNat '0' < 10 := by
  simp only [Char.isDigit, Bool.and_eq_true, decide_eq_true_eq] at h
  obtain ⟨h1, h2⟩ := h
  have h2' : c.val.toNat ≤ 57 := by
    have := UInt32.le_def.mp h2
    simpa [BitVec.le_def] using this
  have h1' : 48 ≤ c.val.toNat := by
    have := UInt32.le_def.mp h1
    simpa [BitVec.le_def] using this
  have h0 : Char.toNat '0' = 48 := rfl
  simp only [Char.toNat] at h0 ⊢
  omega

/-- C1: `filter_candidates` replaces the pool with exactly those candidates `c`
of the old pool for which `get_feedback(c, guess)` equals the observed
feedback, preserving the relative order of the surviving candidates (the
result is a sublist of the pool). -/
theorem filter_candidates_exact (pool : List (List ℕ)) (guess : List ℕ)
    (fb : ℕ × ℤ) :
    (filter_candidates pool guess fb).Sublist pool ∧
      ∀ c, c ∈ filter_candidates pool guess fb ↔
        (c ∈ pool ∧ get_feedback c guess = fb) := by
  refine ⟨List.filter_sublist pool, fun c => ?_⟩
  simp [filter_candidates, List.mem_filter]

/-- C4 counterexample: on malformed Codes with repeated symbols the core does
not raise: `get_feedback((1,1,2,3), (1,1,4,5))` silently returns the value
`(2, -1)` — and a nonsensical one, with a negative cows count. -/
theorem get_feedback_silent_on_repeats :
    get_feedback [1, 1, 2, 3] [1, 1, 4, 5] = (2, -1) := by decide

/-- C4 (amended): the core performs no validation — `get_feedback` silently
returns a value even on malformed Codes — and malformed raw input is instead
rejected before reaching the core by `parse_input`, which only ever produces
structurally valid Codes. -/
theorem parse_input_sound (cs : List Char) (code : List ℕ)
    (h : parse_input cs = some code) : ValidCode code := by
  unfold parse_input at h
  by_cases h1 : cs.length ≠ 4 ∨ ¬ cs.all (fun c => c.isDigit)
  · rw [if_pos h1] at h; exact absurd h (by simp)
  · rw [if_neg h1] at h
    simp only [not_or, not_not, ne_eq] at h1
    obtain ⟨hlen, hdig⟩ := h1
    by_cases h2 : (cs.map fun d => d.toNat - Char.toNat '0').dedup.length ≠ 4
    · rw [if_pos h2] at h; exact absurd h (by simp)
    · rw [if_neg h2] at h
      simp only [not_not, ne_eq] at h2
      obtain rfl : (cs.map fun d => d.toNat - Char.toNat '0') = code :=
        Option.some.inj h
      refine ⟨by simp [hlen], ?_, ?_⟩
      · have heq : (cs.map fun d => d.toNat - Char.toNat '0').dedup =
            cs.map fun d => d.toNat - Char.toNat '0' :=
          (List.dedup_sublist _).eq_of_length
            (by rw [h2, List.length_map, hlen])
        exact List.dedup_eq_self.mp heq
      · intro d hdm
        rw [List.mem_map] at hdm
        obtain ⟨c, hc, rfl⟩ := hdm
        exact char_digit_value_lt_ten c (List.all_eq_true.mp hdig c hc)

/-- C4 witness: `parse_input` accepts the well-formed input `"1234"` and
produces the valid Code `(1,2,3,4)`. -/
theorem parse_input_sound_witness :
    parse_input ['1', '2', '3', '4'] = some [1, 2, 3, 4] ∧
      ValidCode [1, 2, 3, 4] :=
  ⟨by decide, parse_input_sound ['1', '2', '3', '4'] [1, 2, 3, 4] (by decide)⟩

/-- C2: on valid Codes, `get_feedback` returns exactly the spec's feedback:
bulls is the count of positions with matching symbols, cows is the number of
common symbols minus bulls. -/
theorem get_feedback_matches_spec (s g : List ℕ) (hs : ValidCode s)
    (hg : ValidCode g) :
    get_feedback s g = (bullsSpec s g, cowsSpec s g) := by
  have hb : (s.zip g).countP (fun p => decide (p.1 = p.2)) = bullsSpec s g := by
    rw [countP_zip_eq_countP_range, hs.1, hg.1]
    rfl
  simp only [get_feedback, cowsSpec, hb]

/-- C2 witness: the spec characterisation instantiated at the valid Codes
`(1,2,3,4)` and `(4,3,2,1)`. -/
theorem get_feedback_matches_spec_witness :
    get_feedback [1, 2, 3, 4] [4, 3, 2, 1] =
      (bullsSpec [1, 2, 3, 4] [4, 3, 2, 1],
        cowsSpec [1, 2, 3, 4] [4, 3, 2, 1]) :=
  get_feedback_matches_spec [1, 2, 3, 4] [4, 3, 2, 1] (by decide) (by decide)

/-- C5: on valid Codes the feedback is in range: bulls ∈ [0,4], cows ∈ [0,4]
(in particular never negative), and bulls + cows ≤ 4. -/
theorem get_feedback_in_range (s g : List ℕ) (hs : ValidCode s)
    (hg : ValidCode g) :
    (get_feedback s g).1 ≤ 4 ∧ 0 ≤ (get_feedback s g).2 ∧
      (get_feedback s g).2 ≤ 4 ∧
      ((get_feedback s g).1 : ℤ) + (get_feedback s g).2 ≤ 4 := by
  have hBC := countP_zip_le_card_inter s g hs.2.1
  have hC4 : (s.toFinset ∩ g.toFinset).card ≤ 4 := by
    calc (s.toFinset ∩ g.toFinset).card ≤ s.toFinset.card :=
          Finset.card_le_card Finset.inter_subset_left
      _ = s.length := List.toFinset_card_of_nodup hs.2.1
      _ = 4 := hs.1
  simp only [get_feedback]
  refine ⟨by omega, by omega, by omega, by omega⟩

/-- C5 witness: the bounds instantiated at the valid Codes `(1,2,3,4)` and
`(1,5,6,7)`. -/
theorem get_feedback_in_range_witness :
    (get_feedback [1, 2, 3, 4] [1, 5, 6, 7]).1 ≤ 4 ∧
      0 ≤ (get_feedback [1, 2, 3, 4] [1, 5, 6, 7]).2 ∧
      (get_feedback [1, 2, 3, 4] [1, 5, 6, 7]).2 ≤ 4 ∧
      ((get_feedback [1, 2, 3, 4] [1, 5, 6, 7]).1 : ℤ) +
        (get_feedback [1, 2, 3, 4] [1, 5, 6, 7]).2 ≤ 4 :=
  get_feedback_in_range [1, 2, 3, 4] [1, 5, 6, 7] (by decide) (by decide)

/-- C3: whenever the pool has exactly 5040 candidates (the full Universe),
`suggest_best_guess` takes the fast path: it returns `(0,1,2,3)` and performs
zero evaluations of `calculate_guess_entropy`. -/
theorem suggest_best_guess_fast_path (candidates : List (List ℕ))
    (h : candidates.length = 5040) :
    suggest_best_guess candidates = some [0, 1, 2, 3] ∧
      suggest_best_guessCount candidates = (some [0, 1, 2, 3], 0) := by
  constructor <;> simp [suggest_best_guess, suggest_best_guessCount, h]

/-- C3 witness: the initial Universe has exactly 5040 Codes, and on it the
advisor returns `(0,1,2,3)` with zero entropy evaluations. -/
theorem suggest_best_guess_fast_path_witness :
    all_combinations.length = 5040 ∧
      suggest_best_guess all_combinations = some [0, 1, 2, 3] ∧
      suggest_best_guessCount all_combinations = (some [0, 1, 2, 3], 0) :=
  ⟨all_combinations_length,
    suggest_best_guess_fast_path all_combinations all_combinations_length⟩

/-- The uncertainty of a filtered pool never exceeds the uncertainty of the
pool it came from. -/
theorem calculate_uncertainty_filter_le (pool : List (List ℕ))
    (guess : List ℕ) (fb : ℕ × ℤ) :
    calculate_uncertainty (filter_candidates pool guess fb) ≤
      calculate_uncertainty pool := by
  have hle : (filter_candidates pool guess fb).length ≤ pool.length :=
    (List.filter_sublist _).length_le
  unfold calculate_uncertainty
  by_cases hm : (filter_candidates pool guess fb).length = 0
  · rw [if_pos hm]
    by_cases hn : pool.length = 0
    · rw [if_pos hn]
    · rw [if_neg hn]
      exact Real.logb_nonneg (by norm_num)
        (by exact_mod_cast Nat.one_le_iff_ne_zero.mpr hn)
  · have hn : pool.length ≠ 0 := by omega
    rw [if_neg hm, if_neg hn]
    exact Real.logb_le_logb_of_le (by norm_num)
      (by exact_mod_cast Nat.pos_of_ne_zero hm) (by exact_mod_cast hle)

/-- C6: across any `filter_candidates` call of a game session, the pool
uncertainty reported by `calculate_uncertainty` is monotonically
non-increasing, for every guess and feedback pair. -/
theorem uncertainty_nonincreasing (game : BullsAndCowsGame) (guess : List ℕ)
    (fb : ℕ × ℤ) :
    (calculate_uncertaintyS (filter_candidatesS game guess fb)).2 ≤
      (calculate_uncertaintyS game).2 :=
  calculate_uncertainty_filter_le game.candidates guess fb

/-- C7: on a singleton pool the advisor returns the sole candidate: its
expected entropy is 0, which beats the initial `-1.0`. -/
theorem suggest_best_guess_singleton (x : List ℕ) :
    suggest_best_guess [x] = some x := by
  have h1 : ¬([x].length = 5040) := by simp
  simp only [suggest_best_guess]
  rw [if_neg h1]
  simp only [List.foldl_cons, List.foldl_nil, calculate_guess_entropy_singleton]
  norm_num

/-- C8: the Advisor and Estimator only read the pool: the methods
`suggest_best_guess`, `calculate_uncertainty` and `calculate_guess_entropy`
leave the whole session state unchanged, while `filter_candidates` reassigns
exactly the `candidates` field and leaves every other field unchanged. -/
theorem advisor_estimator_read_only (game : BullsAndCowsGame)
    (guess : List ℕ) (cands : List (List ℕ)) (fb : ℕ × ℤ) :
    (suggest_best_guessS game).1 = game ∧
      (calculate_uncertaintyS game).1 = game ∧
      (calculate_guess_entropyS game guess cands).1 = game ∧
      (filter_candidatesS game guess fb).candidates =
        filter_candidates game.candidates guess fb ∧
      (filter_candidatesS game guess fb).all_combinations =
        game.all_combinations ∧
      (filter_candidatesS game guess fb).secret = game.secret ∧
      (filter_candidatesS game guess fb).history = game.history :=
  ⟨rfl, rfl, rfl, rfl, rfl, rfl, rfl⟩

/-- C9: the Advisor is blind to the secret: two session states that agree on
the candidate pool produce the same suggestion, even when their stored
secrets differ. -/
theorem advisor_blind_to_secret (g1 g2 : BullsAndCowsGame)
    (hcand : g1.candidates = g2.candidates) (hsec : g1.secret ≠ g2.secret) :
    (suggest_best_guessS g1).2 = (suggest_best_guessS g2).2 := by
  simp [suggest_best_guessS, hcand]

/-- C9 witness: two concrete states with the same singleton pool and
different secrets receive the same suggestion. -/
theorem advisor_blind_to_secret_witness :
    ({ all_combinations := [], candidates := [[0, 1, 2, 3]],
        secret := some [1, 2, 3, 4], history := [] } :
      BullsAndCowsGame).candidates =
      ({ all_combinations := [], candidates := [[0, 1, 2, 3]],
          secret := some [4, 5, 6, 7], history := [] } :
        BullsAndCowsGame).candidates ∧
    ({ all_combinations := [], candidates := [[0, 1, 2, 3]],
        secret := some [1, 2, 3, 4], history := [] } :
      BullsAndCowsGame).secret ≠
      ({ all_combinations := [], candidates := [[0, 1, 2, 3]],
          secret := some [4, 5, 6, 7], history := [] } :
        BullsAndCowsGame).secret ∧
    (suggest_best_guessS
        { all_combinations := [], candidates := [[0, 1, 2, 3]],
          secret := some [1, 2, 3, 4], history := [] }).2 =
      (suggest_best_guessS
        { all_combinations := [], candidates := [[0, 1, 2, 3]],
          secret := some [4, 5, 6, 7], history := [] }).2 :=
  ⟨rfl, by decide, advisor_blind_to_secret _ _ rfl (by decide)⟩

/-- C10: on the empty pool the advisor's search loop runs zero iterations and
the initial `best_guess = None` is returned (with zero entropy evaluations);
it neither raises nor loops. -/
theorem suggest_best_guess_empty :
    suggest_best_guess [] = none ∧ suggest_best_guessCount [] = (none, 0) := by
  constructor <;> simp [suggest_best_guess, suggest_best_guessCount]

end BullsCows
